import Mathlib

/-!
Verification of the stock-recommendation pipeline core
(`rate_limiter.py`, `recommendation_history.py`, the scoring/ranking logic of
`main.py`, and the activity summaries of `analysis.py`).

Timestamps, prices and scores are modelled as rationals (`ℚ`); Python dicts
keyed by ticker become association lists with `Nodup` keys; values that may be
`None` in Python become `Option`s.
-/

namespace StockRecom

/-! ## Data model -/

/-- A superinvestor activity summary, as built by
`analysis.get_superinvestor_data`: buy/sell/hold counts plus the
`has_superinvestor_addition` flag (absent keys read back as falsy via `.get`,
modelled as `false`). -/
structure SuperFact where
  buys : ℕ
  sells : ℕ
  holds : ℕ
  has_superinvestor_addition : Bool
  deriving DecidableEq, Repr

/-- The summary dict built at the end of `analysis.get_superinvestor_data`
when the grid table parses: `has_superinvestor_addition` is `buys > 0`. -/
def mkSuperFact (buys sells holds : ℕ) : SuperFact :=
  ⟨buys, sells, holds, decide (0 < buys)⟩

/-- The zeroed dict `analysis.get_superinvestor_data` returns when no grid
table is found; it carries no `has_superinvestor_addition` key, so
`si.get('has_superinvestor_addition')` is falsy. -/
def noTableSuperFact : SuperFact :=
  ⟨0, 0, 0, false⟩

/-- An insider activity summary, as built by `analysis.get_insider_data`:
buy/sell counts and the signed net dollar value. -/
structure InsiderFact where
  buys : ℕ
  sells : ℕ
  net_value : ℚ
  deriving DecidableEq, Repr

/-- A screening record as appended to the shortlist in
`screener.filter_stocks` (field names follow the Python dict keys;
`FCF` and `Debt_Equity` may be `None`). -/
structure ScreeningFact where
  Ticker : String
  Current_Price : ℚ
  Week52_Low : ℚ
  Week52_High : ℚ
  Above_Low_Pct : ℚ
  Drop_From_High_Pct : ℚ
  Market_Cap : ℚ
  FCF : Option ℚ
  Debt_Equity : Option ℚ
  deriving DecidableEq, Repr

/-- `config.MIN_INSIDER_BUY_VALUE` ($100k) from `config.py`. -/
def MIN_INSIDER_BUY_VALUE : ℚ := 100000

/-! ## ScoringEngine (`main.py` lines 89-127) -/

/-- Superinvestor scoring from `main.py` (lines 97-105): if
`has_superinvestor_addition` is truthy, award 3 base points, then 2 more if
`buys > sells`, else 1 more if `buys > 0`; otherwise 0. -/
def superinvestorScore (si : SuperFact) : ℚ :=
  if si.has_superinvestor_addition then
    3 + (if si.sells < si.buys then 2 else if 0 < si.buys then 1 else 0)
  else 0

/-- Insider scoring from `main.py` (lines 107-114): a `None` summary (falsy
`ins`) scores 0; else 3 points if `net_value` exceeds
`config.MIN_INSIDER_BUY_VALUE`, else 2 if `net_value > 0`, else 1 if
`buys > 0`, else 0. -/
def insiderScore (ins : Option InsiderFact) : ℚ :=
  match ins with
  | none => 0
  | some i =>
      if MIN_INSIDER_BUY_VALUE < i.net_value then 3
      else if 0 < i.net_value then 2
      else if 0 < i.buys then 1
      else 0

/-- `smart_money_score = insider_score + superinvestor_score`
(`main.py` line 116). -/
def smartMoneyScore (si : SuperFact) (ins : Option InsiderFact) : ℚ :=
  insiderScore ins + superinvestorScore si

/-- AI qualitative contribution (`main.py` lines 120-121):
`mgmt.get('score', 0) / 2 + sust.get('score', 0) / 2`, the missing-key
default being 0. -/
def qualitativeComponent (mgmt sust : Option ℚ) : ℚ :=
  mgmt.getD 0 / 2 + sust.getD 0 / 2

/-- The debt/equity half of the quantitative bonus (`main.py` line 124):
`if stock['Debt_Equity'] and stock['Debt_Equity'] < 0.5: score += 1`.
Python truthiness makes both `None` and `0.0` fail the first conjunct. -/
def debtBonus (de : Option ℚ) : ℚ :=
  match de with
  | none => 0
  | some v => if v ≠ 0 ∧ v < 1/2 then 1 else 0

/-- The quantitative bonus (`main.py` lines 123-127): the debt/equity point
plus one point when `Above_Low_Pct < 5`. -/
def bonusComponent (s : ScreeningFact) : ℚ :=
  debtBonus s.Debt_Equity + (if s.Above_Low_Pct < 5 then 1 else 0)

/-- The accumulated `score` variable at the end of the scoring block of
`main.py` (lines 89-127). -/
def totalScore (si : SuperFact) (ins : Option InsiderFact)
    (mgmt sust : Option ℚ) (s : ScreeningFact) : ℚ :=
  smartMoneyScore si ins + qualitativeComponent mgmt sust + bonusComponent s

/-! ## Scoring theorems -/

/-- C3: for all valid scoring inputs (activity counts and net value of any
sign, qualitative sub-scores in 1-10 when present, any screening facts),
`0 ≤ smart_money_score ≤ 10`, `0 ≤ qualitative_component ≤ 10`,
`0 ≤ bonus_component ≤ 2`, `smart_money_score` is the sum of the insider and
superinvestor components, `insider_score ∈ [0,3]` and
`superinvestor_score ∈ [0,5]`. -/
theorem scoring_bounds (si : SuperFact) (ins : Option InsiderFact)
    (mgmt sust : Option ℚ) (s : ScreeningFact)
    (hm : ∀ x ∈ mgmt, 1 ≤ x ∧ x ≤ 10) (hs : ∀ x ∈ sust, 1 ≤ x ∧ x ≤ 10) :
    (0 ≤ smartMoneyScore si ins ∧ smartMoneyScore si ins ≤ 10) ∧
    (0 ≤ qualitativeComponent mgmt sust ∧ qualitativeComponent mgmt sust ≤ 10) ∧
    (0 ≤ bonusComponent s ∧ bonusComponent s ≤ 2) ∧
    smartMoneyScore si ins = insiderScore ins + superinvestorScore si ∧
    (0 ≤ insiderScore ins ∧ insiderScore ins ≤ 3) ∧
    (0 ≤ superinvestorScore si ∧ superinvestorScore si ≤ 5) := by
  have hins : 0 ≤ insiderScore ins ∧ insiderScore ins ≤ 3 := by
    rcases ins with _ | i
    · simp [insiderScore]
    · simp only [insiderScore]; split_ifs <;> norm_num
  have hsi : 0 ≤ superinvestorScore si ∧ superinvestorScore si ≤ 5 := by
    unfold superinvestorScore
    split_ifs <;> norm_num
  have hq : 0 ≤ qualitativeComponent mgmt sust ∧
      qualitativeComponent mgmt sust ≤ 10 := by
    unfold qualitativeComponent
    match mgmt, sust with
    | none, none => norm_num
    | none, some y =>
        have := hs y rfl
        constructor <;> simp <;> linarith [this.1, this.2]
    | some x, none =>
        have := hm x rfl
        constructor <;> simp <;> linarith [this.1, this.2]
    | some x, some y =>
        have hx := hm x rfl
        have hy := hs y rfl
        constructor <;> simp <;> linarith [hx.1, hx.2, hy.1, hy.2]
  have hb : 0 ≤ bonusComponent s ∧ bonusComponent s ≤ 2 := by
    unfold bonusComponent
    match h : s.Debt_Equity with
    | none => simp only [debtBonus]; split_ifs <;> norm_num
    | some v => simp only [debtBonus]; split_ifs <;> norm_num
  refine ⟨⟨?_, ?_⟩, hq, hb, rfl, hins, hsi⟩
  · unfold smartMoneyScore; linarith [hins.1, hsi.1]
  · unfold smartMoneyScore; linarith [hins.2, hsi.2]

/-- Witness for C3 at concrete inputs. -/
theorem scoring_bounds_witness :
    (∀ x ∈ (some (8 : ℚ)), 1 ≤ x ∧ x ≤ 10) ∧
    (0 ≤ smartMoneyScore (mkSuperFact 2 0 0) (some ⟨1, 0, 150000⟩) ∧
      smartMoneyScore (mkSuperFact 2 0 0) (some ⟨1, 0, 150000⟩) ≤ 10) := by
  have h1 : ∀ x ∈ (some (8 : ℚ)), 1 ≤ x ∧ x ≤ 10 := by
    intro x hx
    simp only [Option.mem_def, Option.some.injEq] at hx
    constructor <;> rw [← hx] <;> norm_num
  have h2 : ∀ x ∈ (some (6 : ℚ)), 1 ≤ x ∧ x ≤ 10 := by
    intro x hx
    simp only [Option.mem_def, Option.some.injEq] at hx
    constructor <;> rw [← hx] <;> norm_num
  exact ⟨h1, (scoring_bounds (mkSuperFact 2 0 0) (some ⟨1, 0, 150000⟩)
    (some 8) (some 6)
    ⟨"AAA", 50, 40, 80, 3, 40, 2000000000, none, some (3/10)⟩ h1 h2).1⟩

/-- The concrete "AAA" screening record of the C5 scenario: Debt/Equity 0.3,
3% above the 52-week low (other fields are irrelevant to scoring). -/
def AAAFact : ScreeningFact :=
  ⟨"AAA", 50, 40, 80, 3, 40, 2000000000, none, some (3/10)⟩

/-- C5: on the concrete scenario (superinvestor buys=2 sells=0, insider
net_value=150000 against the $100k threshold, management 8, sustainability 6,
Debt/Equity 0.3, Above_Low_Pct 3) the code computes superinvestor 5,
insider 3, smart money 8, qualitative 7, bonus 2 and total 17. -/
theorem scenario_AAA :
    superinvestorScore (mkSuperFact 2 0 0) = 5 ∧
    insiderScore (some ⟨1, 0, 150000⟩) = 3 ∧
    smartMoneyScore (mkSuperFact 2 0 0) (some ⟨1, 0, 150000⟩) = 8 ∧
    qualitativeComponent (some 8) (some 6) = 7 ∧
    bonusComponent AAAFact = 2 ∧
    totalScore (mkSuperFact 2 0 0) (some ⟨1, 0, 150000⟩)
      (some 8) (some 6) AAAFact = 17 := by
  refine ⟨?_, ?_, ?_, ?_, ?_, ?_⟩ <;>
    simp [superinvestorScore, insiderScore, smartMoneyScore,
      qualitativeComponent, bonusComponent, debtBonus, totalScore,
      mkSuperFact, AAAFact, MIN_INSIDER_BUY_VALUE] <;> norm_num

/-- C6 counterexample: a known debt-to-equity of exactly 0.0 satisfies the
claim's condition ("known and strictly less than 0.5") yet earns no bonus
point, because `if stock['Debt_Equity'] and ...` treats the float `0.0` as
falsy. -/
theorem bonus_zero_debt_counterexample :
    (some (0 : ℚ) ≠ (none : Option ℚ) ∧ (0 : ℚ) < 1/2) ∧
    debtBonus (some 0) = 0 := by
  refine ⟨⟨by simp, by norm_num⟩, ?_⟩
  simp [debtBonus]

/-- C6 (amended): the bonus awards +1 exactly when debt-to-equity is present
with a nonzero value strictly below 0.5 (a present value of exactly 0.0 is
treated like an absent one and earns nothing), and another +1 exactly when
percent-above-52-week-low is strictly below 5; each half is 0 or 1, so the
bonus is 0, 1 or 2. -/
theorem bonus_spec (s : ScreeningFact) :
    (debtBonus s.Debt_Equity = 1 ↔
      ∃ v, s.Debt_Equity = some v ∧ v ≠ 0 ∧ v < 1/2) ∧
    (debtBonus s.Debt_Equity = 0 ∨ debtBonus s.Debt_Equity = 1) ∧
    ((if s.Above_Low_Pct < 5 then (1 : ℚ) else 0) = 1 ↔ s.Above_Low_Pct < 5) ∧
    (bonusComponent s = 0 ∨ bonusComponent s = 1 ∨ bonusComponent s = 2) := by
  have hd : (debtBonus s.Debt_Equity = 1 ↔
      ∃ v, s.Debt_Equity = some v ∧ v ≠ 0 ∧ v < 1/2) := by
    match h : s.Debt_Equity with
    | none => simp [debtBonus]
    | some v =>
        simp only [debtBonus, Option.some.injEq]
        split_ifs with hv
        · simp only [true_iff]
          exact ⟨v, rfl, hv⟩
        · constructor
          · intro h0; norm_num at h0
          · rintro ⟨w, rfl, hw0, hw5⟩
            exact absurd ⟨hw0, hw5⟩ hv
  have hd01 : debtBonus s.Debt_Equity = 0 ∨ debtBonus s.Debt_Equity = 1 := by
    match h : s.Debt_Equity with
    | none => left; rfl
    | some v => simp only [debtBonus]; split_ifs <;> simp
  have ha : ((if s.Above_Low_Pct < 5 then (1 : ℚ) else 0) = 1 ↔
      s.Above_Low_Pct < 5) := by
    split_ifs with h5 <;> simp [h5]
  refine ⟨hd, hd01, ha, ?_⟩
  unfold bonusComponent
  rcases hd01 with h | h <;> rw [h] <;> split_ifs <;> norm_num

/-- C10: for every activity summary actually produced by
`analysis.get_superinvestor_data` (where `has_superinvestor_addition` is
exactly `buys > 0`), the superinvestor component is 0 when there are no buys
and is 4 or 5 whenever any buy exists; it never takes the values 1, 2 or 3. -/
theorem superinvestor_score_gap (si : SuperFact)
    (hsi : si.has_superinvestor_addition = decide (0 < si.buys)) :
    (si.buys = 0 → superinvestorScore si = 0) ∧
    (0 < si.buys → superinvestorScore si = 4 ∨ superinvestorScore si = 5) ∧
    superinvestorScore si ≠ 1 ∧ superinvestorScore si ≠ 2 ∧
    superinvestorScore si ≠ 3 := by
  unfold superinvestorScore
  rw [hsi]
  by_cases hb : 0 < si.buys
  · rw [decide_eq_true hb, if_pos (by trivial)]
    by_cases hlt : si.sells < si.buys
    · rw [if_pos hlt]
      refine ⟨fun h0 => absurd hb (by rw [h0]; exact lt_irrefl 0),
        fun _ => ?_, ?_, ?_, ?_⟩
      · right; norm_num
      · norm_num
      · norm_num
      · norm_num
    · rw [if_neg hlt, if_pos hb]
      refine ⟨fun h0 => absurd hb (by rw [h0]; exact lt_irrefl 0),
        fun _ => ?_, ?_, ?_, ?_⟩
      · left; norm_num
      · norm_num
      · norm_num
      · norm_num
  · rw [decide_eq_false hb]
    simp only [Bool.false_eq_true, if_false]
    refine ⟨fun _ => by trivial, fun h => absurd h hb, ?_, ?_, ?_⟩
    · norm_num
    · norm_num
    · norm_num

/-- Witness for C10 at the concrete summaries `mkSuperFact 3 1 0` and (via
the hypothesis) the parsed-table flag convention. -/
theorem superinvestor_score_gap_witness :
    ((mkSuperFact 3 1 0).has_superinvestor_addition =
      decide (0 < (mkSuperFact 3 1 0).buys)) ∧
    (0 < (mkSuperFact 3 1 0).buys →
      superinvestorScore (mkSuperFact 3 1 0) = 4 ∨
      superinvestorScore (mkSuperFact 3 1 0) = 5) := by
  have h : (mkSuperFact 3 1 0).has_superinvestor_addition =
      decide (0 < (mkSuperFact 3 1 0).buys) := by decide
  exact ⟨h, (superinvestor_score_gap (mkSuperFact 3 1 0) h).2.1⟩

/-! ## HistoryStore (`recommendation_history.py`)

The persisted JSON mapping ticker → entry is modelled as an association list
whose keys are `Nodup` (a Python dict invariant); iteration order is list
order, matching dict insertion order. -/

/-- A persisted recommendation record: `{'date': ..., 'score': ...,
'price_delta': ...}` with the ISO timestamp modelled as a rational. -/
structure HistoryEntry where
  date : ℚ
  score : ℚ
  price_delta : ℚ
  deriving DecidableEq, Repr

/-- The in-memory history mapping (a Python dict). -/
abbrev Store := List (String × HistoryEntry)

/-- Dict lookup `self.history[ticker]` / `ticker in self.history`. -/
def lookupStore : Store → String → Option HistoryEntry
  | [], _ => none
  | p :: rest, t => if p.1 = t then some p.2 else lookupStore rest t

/-- The possible outcomes of reading the persisted file in
`RecommendationHistory._load_history`: the file may be absent
(`os.path.exists` false), opening/reading it may raise, `json.load` may
raise on corrupt content, or it parses to a mapping. -/
inductive LoadOutcome where
  | fileMissing
  | readFailed
  | parseFailed
  | parsedOk (m : Store)

/-- `RecommendationHistory._load_history` (lines 13-21): a missing file gives
`{}`; any exception while opening or parsing is swallowed by the bare
`except` and gives `{}`; otherwise the parsed mapping is returned. The
function is total: no error escapes. -/
def load_history : LoadOutcome → Store
  | .fileMissing => []
  | .readFailed => []
  | .parseFailed => []
  | .parsedOk m => m

/-- `RecommendationHistory.is_recently_recommended` (lines 28-45): `False`
when the ticker has no entry; else `last_recommended > now - days`. -/
def is_recently_recommended (h : Store) (ticker : String) (now days : ℚ) :
    Bool :=
  match lookupStore h ticker with
  | none => false
  | some e => decide (now - days < e.date)

/-- `RecommendationHistory.get_excluded_tickers` (lines 63-81): the tickers
whose entry has `last_recommended > now - days`, in dict order. -/
def get_excluded_tickers (h : Store) (now days : ℚ) : List String :=
  (h.filter (fun p => decide (now - days < p.2.date))).map Prod.fst

/-- `RecommendationHistory.clean_old_entries` (lines 99-114): collect the
tickers whose entry is strictly older than `now - days`, delete them, and
save (persist) exactly when that list is nonempty. Returns the new store and
the saved flag. -/
def clean_old_entries (h : Store) (now days : ℚ) : Store × Bool :=
  let cutoff := now - days
  let tickers_to_remove :=
    (h.filter (fun p => decide (p.2.date < cutoff))).map Prod.fst
  (h.filter (fun p => decide (p.1 ∉ tickers_to_remove)),
    decide (tickers_to_remove ≠ []))

/-! ## History theorems -/

/-- C2 counterexample: an entry recorded at T = 0 with cooldown C = 60 is
*not* excluded at the query time T + C = 60 (the code's
`last_recommended > now - days` is strict), though the claim's exclusion
interval `(T, T+C]` contains T + C. -/
theorem cooldown_boundary_counterexample :
    ¬ (∀ q : ℚ, 0 < q → q ≤ 0 + 60 →
      is_recently_recommended [("AAA", ⟨0, 8, 3⟩)] "AAA" q 60 = true) := by
  intro hclaim
  have h60 := hclaim 60 (by norm_num) (by norm_num)
  have : is_recently_recommended [("AAA", ⟨0, 8, 3⟩)] "AAA" 60 60 = false := by
    simp [is_recently_recommended, lookupStore]
  rw [this] at h60
  exact Bool.false_ne_true h60

/-- C2 (amended): for a store with `Nodup` keys, both exclusion queries
report a symbol with an entry recorded at time T and cooldown C as excluded
exactly at query times strictly before T + C — in particular throughout
[T, T+C) but not at T+C itself nor later — and a symbol with no entry is
never excluded. -/
theorem cooldown_exclusion_spec (h : Store) (t : String) (C q : ℚ)
    (hnd : (h.map Prod.fst).Nodup) :
    (is_recently_recommended h t q C = true ↔
      ∃ e, lookupStore h t = some e ∧ q < e.date + C) ∧
    (t ∈ get_excluded_tickers h q C ↔
      ∃ e, lookupStore h t = some e ∧ q < e.date + C) := by
  constructor
  · unfold is_recently_recommended
    match hl : lookupStore h t with
    | none => simp
    | some e =>
        simp only [decide_eq_true_eq, Option.some.injEq]
        constructor
        · intro hq
          exact ⟨e, rfl, by linarith⟩
        · rintro ⟨e', he', hq⟩
          rw [he']
          linarith
  · unfold get_excluded_tickers
    induction h with
    | nil => simp [lookupStore]
    | cons p rest ih =>
        rw [List.map_cons, List.nodup_cons] at hnd
        by_cases hp : p.1 = t
        · subst hp
          have hlook : lookupStore (p :: rest) p.1 = some p.2 := by
            simp [lookupStore]
          by_cases hdate : q - C < p.2.date
          · simp only [List.filter_cons, hdate, decide_True, if_true,
              List.map_cons, List.mem_cons]
            constructor
            · intro _
              exact ⟨p.2, hlook, by linarith⟩
            · intro _
              left; trivial
          · simp only [List.filter_cons, hdate, decide_False]
            constructor
            · intro hmem
              exfalso
              apply hnd.1
              have := List.mem_map.mp hmem
              obtain ⟨x, hx, hxt⟩ := this
              have hxr : x ∈ rest := List.mem_of_mem_filter hx
              exact hxt ▸ List.mem_map_of_mem Prod.fst hxr
            · rintro ⟨e, he, hq⟩
              rw [hlook, Option.some.injEq] at he
              subst he
              linarith
        · have hlook : lookupStore (p :: rest) t = lookupStore rest t := by
            simp [lookupStore, hp]
          rw [hlook]
          by_cases hdate : q - C < p.2.date
          · simp only [List.filter_cons, hdate, decide_True, if_true,
              List.map_cons, List.mem_cons]
            rw [← ih hnd.2]
            constructor
            · rintro (hpt | hmem)
              · exact absurd hpt.symm hp
              · exact hmem
            · intro hmem
              right; exact hmem
          · simp only [List.filter_cons, hdate, decide_False]
            exact ih hnd.2

/-- Witness for C2's amended theorem on a concrete two-entry store. -/
theorem cooldown_exclusion_spec_witness :
    (([("AAA", HistoryEntry.mk 0 8 3), ("BBB", ⟨10, 5, 1⟩)].map
        Prod.fst).Nodup) ∧
    (is_recently_recommended
        [("AAA", ⟨0, 8, 3⟩), ("BBB", ⟨10, 5, 1⟩)] "AAA" 30 60 = true ↔
      ∃ e, lookupStore [("AAA", ⟨0, 8, 3⟩), ("BBB", ⟨10, 5, 1⟩)] "AAA" =
          some e ∧ (30 : ℚ) < e.date + 60) := by
  have hnd : (([("AAA", HistoryEntry.mk 0 8 3), ("BBB", ⟨10, 5, 1⟩)].map
      Prod.fst).Nodup) := by decide
  exact ⟨hnd, (cooldown_exclusion_spec
    [("AAA", ⟨0, 8, 3⟩), ("BBB", ⟨10, 5, 1⟩)] "AAA" 60 30 hnd).1⟩

lemma lookupStore_none_iff (l : Store) (t : String) :
    lookupStore l t = none ↔ t ∉ l.map Prod.fst := by
  induction l with
  | nil => simp [lookupStore]
  | cons p rest ih =>
      by_cases hp : p.1 = t
      · simp [lookupStore, hp]
      · simp [lookupStore, hp, ih, Ne.symm hp]

lemma lookupStore_filter (f : String × HistoryEntry → Bool) (l : Store)
    (t : String) (hnd : (l.map Prod.fst).Nodup) :
    lookupStore (l.filter f) t =
      match lookupStore l t with
      | none => none
      | some e => if f (t, e) then some e else none := by
  induction l with
  | nil => simp [lookupStore]
  | cons p rest ih =>
      rw [List.map_cons, List.nodup_cons] at hnd
      by_cases hp : p.1 = t
      · subst hp
        have hnone : lookupStore rest p.1 = none :=
          (lookupStore_none_iff rest p.1).mpr hnd.1
        have hfnone : lookupStore (rest.filter f) p.1 = none := by
          rw [lookupStore_none_iff]
          intro hmem
          obtain ⟨x, hx, hxt⟩ := List.mem_map.mp hmem
          exact hnd.1 (hxt ▸
            List.mem_map_of_mem Prod.fst (List.mem_of_mem_filter hx))
        by_cases hf : f p
        · rw [List.filter_cons_of_pos hf]
          simp [lookupStore, hf]
        · rw [List.filter_cons_of_neg hf]
          simp [lookupStore, hfnone, hf]
      · have h1 : lookupStore (p :: rest) t = lookupStore rest t := by
          simp [lookupStore, hp]
        rw [h1, ← ih hnd.2]
        by_cases hf : f p
        · rw [List.filter_cons_of_pos hf]
          simp [lookupStore, hp]
        · rw [List.filter_cons_of_neg hf]

lemma lookupStore_mem {l : Store} {t : String} {e : HistoryEntry}
    (hl : lookupStore l t = some e) : (t, e) ∈ l := by
  induction l with
  | nil => simp [lookupStore] at hl
  | cons p rest ih =>
      by_cases hp : p.1 = t
      · rw [lookupStore, if_pos hp, Option.some.injEq] at hl
        have hpe : (t, e) = p := by
          obtain ⟨a, b⟩ := p
          simp only at hp hl
          rw [hp, hl]
        rw [hpe]
        exact List.mem_cons_self p rest
      · rw [lookupStore, if_neg hp] at hl
        exact List.mem_cons_of_mem p (ih hl)

lemma mem_key_unique {l : Store} (hnd : (l.map Prod.fst).Nodup)
    {p x : String × HistoryEntry} (hp : p ∈ l) (hx : x ∈ l)
    (hk : x.1 = p.1) : x = p := by
  induction l with
  | nil => simp at hp
  | cons a rest ih =>
      rw [List.map_cons, List.nodup_cons] at hnd
      rw [List.mem_cons] at hp hx
      rcases hp with hp | hp <;> rcases hx with hx | hx
      · rw [hx, hp]
      · exfalso
        apply hnd.1
        rw [← hp, ← hk]
        exact List.mem_map_of_mem Prod.fst hx
      · exfalso
        apply hnd.1
        rw [← hx, hk]
        exact List.mem_map_of_mem Prod.fst hp
      · exact ih hnd.2 hp hx

/-- C7: after `clean_old_entries` with retention `days` at time `now`, every
entry strictly older than `now - days` is gone, every entry at least as
recent as the cutoff is kept with all fields unchanged, no new entries
appear, and the store is persisted exactly when at least one entry was
removed. -/
theorem prune_spec (h : Store) (now days : ℚ)
    (hnd : (h.map Prod.fst).Nodup) :
    (∀ t e, lookupStore h t = some e → e.date < now - days →
      lookupStore (clean_old_entries h now days).1 t = none) ∧
    (∀ t e, lookupStore h t = some e → now - days ≤ e.date →
      lookupStore (clean_old_entries h now days).1 t = some e) ∧
    (∀ t, lookupStore h t = none →
      lookupStore (clean_old_entries h now days).1 t = none) ∧
    ((clean_old_entries h now days).2 = true ↔
      ∃ p ∈ h, p.2.date < now - days) := by
  set cutoff := now - days with hcut
  set toRemove :=
    (h.filter (fun p => decide (p.2.date < cutoff))).map Prod.fst with htr
  have hmemiff : ∀ t e, lookupStore h t = some e →
      (t ∈ toRemove ↔ e.date < cutoff) := by
    intro t e hl
    rw [htr]
    constructor
    · intro hmem
      obtain ⟨x, hx, hxt⟩ := List.mem_map.mp hmem
      have hxh : x ∈ h := List.mem_of_mem_filter hx
      have hxd : x.2.date < cutoff := by
        have := List.of_mem_filter hx
        exact of_decide_eq_true this
      have hxe : x = (t, e) :=
        mem_key_unique hnd (lookupStore_mem hl) hxh (by rw [hxt])
      rw [hxe] at hxd
      exact hxd
    · intro hd
      have : (t, e) ∈ h.filter (fun p => decide (p.2.date < cutoff)) :=
        List.mem_filter.mpr ⟨lookupStore_mem hl, decide_eq_true hd⟩
      exact List.mem_map_of_mem Prod.fst this
  have hstep : ∀ t, lookupStore (clean_old_entries h now days).1 t =
      match lookupStore h t with
      | none => none
      | some e => if decide (t ∉ toRemove) then some e else none := by
    intro t
    exact lookupStore_filter (fun p => decide (p.1 ∉ toRemove)) h t hnd
  refine ⟨?_, ?_, ?_, ?_⟩
  · intro t e hl hold
    rw [hstep t, hl]
    have : t ∈ toRemove := (hmemiff t e hl).mpr hold
    simp [this]
  · intro t e hl hrecent
    rw [hstep t, hl]
    have : t ∉ toRemove := fun hmem =>
      absurd ((hmemiff t e hl).mp hmem) (not_lt.mpr hrecent)
    simp [this]
  · intro t hl
    rw [hstep t, hl]
  · show decide (toRemove ≠ []) = true ↔ _
    rw [decide_eq_true_eq, htr]
    constructor
    · intro hne
      rcases List.exists_mem_of_ne_nil _ hne with ⟨x, hx⟩
      obtain ⟨pr, hpr, hfst⟩ := List.mem_map.mp hx
      exact ⟨pr, (List.mem_filter.mp hpr).1,
        of_decide_eq_true (List.mem_filter.mp hpr).2⟩
    · rintro ⟨p, hp, hd⟩ hnil
      have : p ∈ h.filter (fun p => decide (p.2.date < cutoff)) :=
        List.mem_filter.mpr ⟨hp, decide_eq_true hd⟩
      rw [List.map_eq_nil_iff] at hnil
      rw [hnil] at this
      simp at this

/-- Witness for C7 on a concrete two-entry store pruned at time 400 with
retention 365. -/
theorem prune_spec_witness :
    (([("OLD", HistoryEntry.mk 0 7 2), ("NEW", ⟨300, 6, 4⟩)].map
        Prod.fst).Nodup) ∧
    ((clean_old_entries [("OLD", ⟨0, 7, 2⟩), ("NEW", ⟨300, 6, 4⟩)]
        400 365).2 = true ↔
      ∃ p ∈ [("OLD", HistoryEntry.mk 0 7 2), ("NEW", ⟨300, 6, 4⟩)],
        p.2.date < 400 - 365) := by
  have hnd : (([("OLD", HistoryEntry.mk 0 7 2), ("NEW", ⟨300, 6, 4⟩)].map
      Prod.fst).Nodup) := by decide
  exact ⟨hnd, (prune_spec [("OLD", ⟨0, 7, 2⟩), ("NEW", ⟨300, 6, 4⟩)]
    400 365 hnd).2.2.2⟩

/-- C8: loading the history store when the persisted file is missing,
unreadable or corrupt yields the empty store without raising (the embedding
is a total function over all read outcomes), and a successfully parsed file
yields exactly its parsed mapping. -/
theorem load_history_spec :
    load_history .fileMissing = [] ∧
    load_history .readFailed = [] ∧
    load_history .parseFailed = [] ∧
    ∀ m : Store, load_history (.parsedOk m) = m := by
  exact ⟨rfl, rfl, rfl, fun _ => rfl⟩

/-! ## Ranker (`main.py` lines 177-194)

`scored_candidates.sort(key=lambda x: (-smart, -total, delta))` is Python's
stable sort, ascending in the lexicographic order of the key tuples. A stable
sort for a total preorder is uniquely determined by sortedness plus
key-preserving input order, so it is embedded here as insertion sort over the
same key order. -/

/-- A scored candidate as appended to `scored_candidates` in `main.py`
(lines 129-147); only the fields the sort touches are kept. -/
structure Candidate where
  ticker : String
  total_score : ℚ
  smart_money_score : ℚ
  insider_score : ℚ
  superinvestor_score : ℚ
  price_delta_pct : ℚ
  deriving DecidableEq, Repr

/-- The Python sort key `(-x['smart_money_score'], -x['total_score'],
x['price_delta_pct'])`. -/
def sortKey (c : Candidate) : ℚ × ℚ × ℚ :=
  (-c.smart_money_score, -c.total_score, c.price_delta_pct)

/-- Lexicographic comparison of key tuples, exactly Python's tuple `<=`. -/
def keyLe (a b : ℚ × ℚ × ℚ) : Prop :=
  a.1 < b.1 ∨ (a.1 = b.1 ∧
    (a.2.1 < b.2.1 ∨ (a.2.1 = b.2.1 ∧ a.2.2 ≤ b.2.2)))

instance : DecidableRel keyLe := fun a b => by
  unfold keyLe
  infer_instance

/-- The candidate preorder the sort uses: smaller key first, i.e. higher
smart-money score, then higher total score, then lower price delta. -/
def rankLe (a b : Candidate) : Prop := keyLe (sortKey a) (sortKey b)

instance : DecidableRel rankLe := fun a b => by
  unfold rankLe
  infer_instance

lemma keyLe_refl (a : ℚ × ℚ × ℚ) : keyLe a a :=
  Or.inr ⟨rfl, Or.inr ⟨rfl, le_refl _⟩⟩

lemma keyLe_total (a b : ℚ × ℚ × ℚ) : keyLe a b ∨ keyLe b a := by
  unfold keyLe
  rcases lt_trichotomy a.1 b.1 with h1 | h1 | h1
  · exact Or.inl (Or.inl h1)
  · rcases lt_trichotomy a.2.1 b.2.1 with h2 | h2 | h2
    · exact Or.inl (Or.inr ⟨h1, Or.inl h2⟩)
    · rcases le_total a.2.2 b.2.2 with h3 | h3
      · exact Or.inl (Or.inr ⟨h1, Or.inr ⟨h2, h3⟩⟩)
      · exact Or.inr (Or.inr ⟨h1.symm, Or.inr ⟨h2.symm, h3⟩⟩)
    · exact Or.inr (Or.inr ⟨h1.symm, Or.inl h2⟩)
  · exact Or.inr (Or.inl h1)

lemma keyLe_trans {a b c : ℚ × ℚ × ℚ} (hab : keyLe a b) (hbc : keyLe b c) :
    keyLe a c := by
  unfold keyLe at *
  rcases hab with h | ⟨e1, h⟩ <;> rcases hbc with h' | ⟨e1', h'⟩
  · exact Or.inl (lt_trans h h')
  · exact Or.inl (lt_of_lt_of_le h (le_of_eq e1'))
  · exact Or.inl (lt_of_le_of_lt (le_of_eq e1) h')
  · refine Or.inr ⟨e1.trans e1', ?_⟩
    rcases h with h2 | ⟨e2, h3⟩ <;> rcases h' with h2' | ⟨e2', h3'⟩
    · exact Or.inl (lt_trans h2 h2')
    · exact Or.inl (lt_of_lt_of_le h2 (le_of_eq e2'))
    · exact Or.inl (lt_of_le_of_lt (le_of_eq e2) h2')
    · exact Or.inr ⟨e2.trans e2', le_trans h3 h3'⟩

instance : IsTotal Candidate rankLe :=
  ⟨fun a b => keyLe_total (sortKey a) (sortKey b)⟩

instance : IsTrans Candidate rankLe :=
  ⟨fun _ _ _ hab hbc => keyLe_trans hab hbc⟩

/-- The ranking step of `main.py` (lines 177-183): the stable ascending sort
of the candidate list by `sortKey`. -/
def ranker (l : List Candidate) : List Candidate :=
  l.insertionSort rankLe

/-- The selection `best_candidate = scored_candidates[0]` of `main.py`
(line 194). -/
def bestCandidate (l : List Candidate) : Option Candidate :=
  (ranker l).head?

lemma not_rankLe_key_ne {a b : Candidate} (hab : ¬ rankLe a b) :
    sortKey b ≠ sortKey a := by
  intro hk
  exact hab (show keyLe (sortKey a) (sortKey b) from hk ▸ keyLe_refl _)

lemma filter_orderedInsert_key (k : ℚ × ℚ × ℚ) (a : Candidate)
    (l : List Candidate) :
    (l.orderedInsert rankLe a).filter (fun c => decide (sortKey c = k)) =
      if sortKey a = k then
        a :: l.filter (fun c => decide (sortKey c = k))
      else l.filter (fun c => decide (sortKey c = k)) := by
  induction l with
  | nil =>
      simp only [List.orderedInsert, List.filter_cons, List.filter_nil]
      by_cases ha : sortKey a = k <;> simp [ha]
  | cons b l ih =>
      rw [List.orderedInsert]
      by_cases hab : rankLe a b
      · rw [if_pos hab]
        by_cases ha : sortKey a = k <;> simp [List.filter_cons, ha]
      · rw [if_neg hab]
        by_cases ha : sortKey a = k <;> by_cases hb : sortKey b = k
        · exact absurd (hb.trans ha.symm) (not_rankLe_key_ne hab)
        · simp [List.filter_cons, ha, hb, ih]
        · simp [List.filter_cons, ha, hb, ih]
        · simp [List.filter_cons, ha, hb, ih]

lemma filter_insertionSort_key (k : ℚ × ℚ × ℚ) (l : List Candidate) :
    (l.insertionSort rankLe).filter (fun c => decide (sortKey c = k)) =
      l.filter (fun c => decide (sortKey c = k)) := by
  induction l with
  | nil => rfl
  | cons a l ih =>
      rw [List.insertionSort, filter_orderedInsert_key, ih, List.filter_cons]
      by_cases ha : sortKey a = k <;> simp [ha]

/-- C4: the ranking is the stable sort by smart-money score descending, then
total score descending, then price delta ascending. Its output is a
permutation of the input, it is sorted in that (total, transitive) key
order, candidates with equal key triples keep their input order, and for a
nonempty input the selected best candidate is a list element whose key
precedes (weakly) every other candidate's. Being a pure function of the
input list, the ranking is deterministic across runs. -/
theorem ranker_spec (l : List Candidate) (hne : l ≠ []) :
    (ranker l).Perm l ∧
    (ranker l).Sorted rankLe ∧
    (∀ k, (ranker l).filter (fun c => decide (sortKey c = k)) =
      l.filter (fun c => decide (sortKey c = k))) ∧
    (∃ b, bestCandidate l = some b ∧ b ∈ l ∧ ∀ c ∈ l, rankLe b c) := by
  refine ⟨List.perm_insertionSort rankLe l, List.sorted_insertionSort rankLe l,
    fun k => filter_insertionSort_key k l, ?_⟩
  have hperm : (ranker l).Perm l := List.perm_insertionSort rankLe l
  have hsor : (ranker l).Sorted rankLe := List.sorted_insertionSort rankLe l
  match hr : ranker l with
  | [] =>
      rw [hr] at hperm
      exact absurd hperm.nil_eq.symm hne
  | b :: rest =>
      refine ⟨b, by rw [bestCandidate, hr]; rfl, ?_, ?_⟩
      · exact hperm.mem_iff.mp (hr ▸ List.mem_cons_self b rest)
      · intro c hc
        have hcr : c ∈ b :: rest := by
          rw [← hr]
          exact hperm.mem_iff.mpr hc
        rcases List.mem_cons.mp hcr with hcb | hcrest
        · rw [hcb]
          exact keyLe_refl _
        · rw [hr] at hsor
          exact List.rel_of_sorted_cons hsor c hcrest

/-- Witness for C4 on a concrete two-candidate list. -/
theorem ranker_spec_witness :
    ([Candidate.mk "AAA" 17 8 3 5 3, Candidate.mk "BBB" 12 5 2 3 7] ≠
      ([] : List Candidate)) ∧
    ∃ b, bestCandidate
        [Candidate.mk "AAA" 17 8 3 5 3, Candidate.mk "BBB" 12 5 2 3 7] =
        some b ∧
      b ∈ [Candidate.mk "AAA" 17 8 3 5 3, Candidate.mk "BBB" 12 5 2 3 7] ∧
      ∀ c ∈ [Candidate.mk "AAA" 17 8 3 5 3, Candidate.mk "BBB" 12 5 2 3 7],
        rankLe b c := by
  have hne : [Candidate.mk "AAA" 17 8 3 5 3, Candidate.mk "BBB" 12 5 2 3 7] ≠
      ([] : List Candidate) := by simp
  exact ⟨hne, (ranker_spec
    [Candidate.mk "AAA" 17 8 3 5 3, Candidate.mk "BBB" 12 5 2 3 7]
    hne).2.2.2⟩

/-! ## Pipeline empty-result outcomes (`main.py` lines 42-53, 153-171, 194) -/

/-- How a pipeline run ends: one of the three distinct empty-result
terminations of `main.py` (lines 51-53, 153-155, 168-171), or a
recommendation. -/
inductive RunOutcome where
  | noStocksFound
  | noCandidatesAfterAnalysis
  | allRecentlyRecommended
  | recommended (c : Candidate)
  deriving DecidableEq, Repr

/-- The terminal message printed just before each early `return` in
`main.py`; the successful path does not terminate with one of these. -/
def terminalMessage : RunOutcome → Option String
  | .noStocksFound => some "No stocks found matching criteria."
  | .noCandidatesAfterAnalysis => some "No candidates after analysis."
  | .allRecentlyRecommended =>
      some "No new candidates available. All qualifying stocks were recently recommended."
  | .recommended _ => none

/-- The shortlist deduplication of `main.py` (lines 43-49): keep the first
record for each ticker. -/
def dedupStocks (seen : List String) : List ScreeningFact → List ScreeningFact
  | [] => []
  | s :: rest =>
      if s.Ticker ∈ seen then dedupStocks seen rest
      else s :: dedupStocks (s.Ticker :: seen) rest

/-- The control skeleton of `main.py`: deduplicate the shortlist and stop if
it is empty (lines 42-53); analyse each stock, dropping failures
(`filterMap`, lines 62-151) and stop if nothing survives (lines 153-155);
drop excluded tickers (lines 159-162) and stop if nothing remains (lines
168-171); otherwise sort and recommend the top candidate (lines 177-194). -/
def runPipeline (shortlist : List ScreeningFact)
    (analyze : ScreeningFact → Option Candidate)
    (excluded : List String) : RunOutcome :=
  let uniq := dedupStocks [] shortlist
  if uniq = [] then .noStocksFound
  else
    let scored := uniq.filterMap analyze
    if scored = [] then .noCandidatesAfterAnalysis
    else
      let remaining := scored.filter (fun c => decide (c.ticker ∉ excluded))
      if remaining = [] then .allRecentlyRecommended
      else .recommended ((ranker remaining).headD ⟨"", 0, 0, 0, 0, 0⟩)

/-- C9: the three empty-result terminations are pairwise distinct outcomes
with pairwise distinct explicit terminal messages, and each arises exactly
from its own cause: an empty (deduplicated) shortlist, an empty
post-analysis candidate list, or an empty post-exclusion candidate list. -/
theorem pipeline_empty_outcomes (shortlist : List ScreeningFact)
    (analyze : ScreeningFact → Option Candidate) (excluded : List String) :
    (terminalMessage .noStocksFound ≠
        terminalMessage .noCandidatesAfterAnalysis ∧
      terminalMessage .noStocksFound ≠
        terminalMessage .allRecentlyRecommended ∧
      terminalMessage .noCandidatesAfterAnalysis ≠
        terminalMessage .allRecentlyRecommended ∧
      (∀ o : RunOutcome, terminalMessage o = none ↔
        ∃ c, o = .recommended c)) ∧
    (runPipeline shortlist analyze excluded = .noStocksFound ↔
      dedupStocks [] shortlist = []) ∧
    (runPipeline shortlist analyze excluded = .noCandidatesAfterAnalysis ↔
      dedupStocks [] shortlist ≠ [] ∧
      (dedupStocks [] shortlist).filterMap analyze = []) ∧
    (runPipeline shortlist analyze excluded = .allRecentlyRecommended ↔
      dedupStocks [] shortlist ≠ [] ∧
      (dedupStocks [] shortlist).filterMap analyze ≠ [] ∧
      ((dedupStocks [] shortlist).filterMap analyze).filter
        (fun c => decide (c.ticker ∉ excluded)) = []) := by
  have hmsg : (terminalMessage .noStocksFound ≠
        terminalMessage .noCandidatesAfterAnalysis ∧
      terminalMessage .noStocksFound ≠
        terminalMessage .allRecentlyRecommended ∧
      terminalMessage .noCandidatesAfterAnalysis ≠
        terminalMessage .allRecentlyRecommended ∧
      (∀ o : RunOutcome, terminalMessage o = none ↔
        ∃ c, o = .recommended c)) := by
    refine ⟨by simp [terminalMessage], by simp [terminalMessage],
      by simp [terminalMessage], ?_⟩
    intro o
    cases o <;> simp [terminalMessage]
  by_cases h1 : dedupStocks [] shortlist = []
  · have hrun : runPipeline shortlist analyze excluded = .noStocksFound := by
      unfold runPipeline
      rw [if_pos h1]
    refine ⟨hmsg, ?_, ?_, ?_⟩
    · rw [hrun]
      simp [h1]
    · rw [hrun]
      constructor
      · intro h
        exact absurd h (by simp)
      · rintro ⟨hne, _⟩
        exact absurd h1 hne
    · rw [hrun]
      constructor
      · intro h
        exact absurd h (by simp)
      · rintro ⟨hne, _⟩
        exact absurd h1 hne
  · by_cases h2 : (dedupStocks [] shortlist).filterMap analyze = []
    · have hrun : runPipeline shortlist analyze excluded =
          .noCandidatesAfterAnalysis := by
        unfold runPipeline
        rw [if_neg h1, if_pos h2]
      refine ⟨hmsg, ?_, ?_, ?_⟩
      · rw [hrun]
        constructor
        · intro h
          exact absurd h (by simp)
        · intro h
          exact absurd h h1
      · rw [hrun]
        simp [h1, h2]
      · rw [hrun]
        constructor
        · intro h
          exact absurd h (by simp)
        · rintro ⟨_, hne2, _⟩
          exact absurd h2 hne2
    · by_cases h3 : ((dedupStocks [] shortlist).filterMap analyze).filter
          (fun c => decide (c.ticker ∉ excluded)) = []
      · have hrun : runPipeline shortlist analyze excluded =
            .allRecentlyRecommended := by
          unfold runPipeline
          rw [if_neg h1, if_neg h2, if_pos h3]
        refine ⟨hmsg, ?_, ?_, ?_⟩
        · rw [hrun]
          constructor
          · intro h
            exact absurd h (by simp)
          · intro h
            exact absurd h h1
        · rw [hrun]
          constructor
          · intro h
            exact absurd h (by simp)
          · rintro ⟨_, heq2⟩
            exact absurd heq2 h2
        · rw [hrun]
          exact ⟨fun _ => ⟨h1, h2, h3⟩, fun _ => rfl⟩
      · have hrun : runPipeline shortlist analyze excluded =
            .recommended ((ranker (((dedupStocks [] shortlist).filterMap
              analyze).filter (fun c => decide (c.ticker ∉ excluded)))).headD
              ⟨"", 0, 0, 0, 0, 0⟩) := by
          unfold runPipeline
          rw [if_neg h1, if_neg h2, if_neg h3]
        refine ⟨hmsg, ?_, ?_, ?_⟩
        · rw [hrun]
          constructor
          · intro h
            exact absurd h (by simp)
          · intro h
            exact absurd h h1
        · rw [hrun]
          constructor
          · intro h
            exact absurd h (by simp)
          · rintro ⟨_, heq2⟩
            exact absurd heq2 h2
        · rw [hrun]
          constructor
          · intro h
            exact absurd h (by simp)
          · rintro ⟨_, _, hf⟩
            exact absurd hf h3

/-! ## RateGovernor (`rate_limiter.py`)

`RateLimiter.wait_if_needed` is driven by the wall clock: each call observes
`now = datetime.now()`, and a call that sleeps observes a second, later
`now`. An execution is modelled by the list of those observed times: one
pair `(q, r)` per call, where `q` is the time observed on entry and `r` the
time observed after the sleep (`r` is ignored by the step when no sleep
happens). `validFrom`/`validFromWeak` say which schedules the real clock can
produce: times never decrease (`validFromWeak`) or strictly increase
(`validFrom`) between calls, and `time.sleep(wait + 0.1)` makes the
post-sleep observation at least `oldest + window + 0.1`. -/

/-- The `0.1` second buffer added to the sleep (`rate_limiter.py` line 41). -/
def margin : ℚ := 1/10

/-- The eviction loop `while self.calls and (now - self.calls[0]) > window:
popleft()` (`rate_limiter.py` lines 30-31, 45-46): drop leading records
strictly older than `now - window`. -/
def evict (W now : ℚ) (calls : List ℚ) : List ℚ :=
  calls.dropWhile (fun t => decide (W < now - t))

/-- One call of `RateLimiter.wait_if_needed` (`rate_limiter.py` lines
22-49): evict at the entry time `q`; if at least `max_calls` records remain,
compute `wait = (oldest + window) - q`, and if `wait > 0` sleep (so the
clock reads `r` afterwards) and re-evict at `r`; finally append the current
time. Returns the new deque and the appended timestamp. -/
def stepLimiter (m : ℕ) (W : ℚ) (calls : List ℚ) (q r : ℚ) :
    List ℚ × ℚ :=
  let c1 := evict W q calls
  if m ≤ c1.length then
    if 0 < c1.headD 0 + W - q then
      (evict W r c1 ++ [r], r)
    else
      (c1 ++ [q], q)
  else
    (c1 ++ [q], q)

/-- Whether the call entered at time `q` sleeps. -/
def needsSleep (m : ℕ) (W : ℚ) (calls : List ℚ) (q : ℚ) : Bool :=
  decide (m ≤ (evict W q calls).length) &&
    decide (0 < (evict W q calls).headD 0 + W - q)

/-- Realizable schedules with a *strictly* advancing clock: each call's
entry time strictly exceeds the time observed by the previous call, and a
sleeping call's post-sleep time is at least `oldest + window + margin`
(`time.sleep(wait + 0.1)` suspends at least that long past `q`). -/
def validFrom (m : ℕ) (W : ℚ) : List ℚ → ℚ → List (ℚ × ℚ) → Bool
  | _, _, [] => true
  | calls, t, (q, r) :: evs =>
      decide (t < q) &&
      (!needsSleep m W calls q ||
        decide ((evict W q calls).headD 0 + W + margin ≤ r)) &&
      validFrom m W (stepLimiter m W calls q r).1
        (stepLimiter m W calls q r).2 evs

/-- Realizable schedules with a merely *nondecreasing* clock — all the real
clock guarantees, since `datetime.now()` can repeat a reading. -/
def validFromWeak (m : ℕ) (W : ℚ) : List ℚ → ℚ → List (ℚ × ℚ) → Bool
  | _, _, [] => true
  | calls, t, (q, r) :: evs =>
      decide (t ≤ q) &&
      (!needsSleep m W calls q ||
        decide ((evict W q calls).headD 0 + W + margin ≤ r)) &&
      validFromWeak m W (stepLimiter m W calls q r).1
        (stepLimiter m W calls q r).2 evs

/-- The timestamps recorded (appended) by a sequence of calls, in order. -/
def runHist (m : ℕ) (W : ℚ) : List ℚ → List (ℚ × ℚ) → List ℚ
  | _, [] => []
  | calls, (q, r) :: evs =>
      (stepLimiter m W calls q r).2 ::
        runHist m W (stepLimiter m W calls q r).1 evs

/-- The number of recorded calls in the half-open trailing window `(a-W, a]`. -/
def winCount (hist : List ℚ) (a W : ℚ) : ℕ :=
  (hist.filter (fun x => decide (a - W < x) && decide (x ≤ a))).length

/-- C1 counterexample: with `max_calls = 2`, `window = 10` and the
realizable (nondecreasing-clock) schedule of calls entering at times
0, 5, 10, 10 — the clock repeating the reading 10 and the third call hitting
the window boundary exactly, so `wait = 0` triggers no sleep — the recorded
history is `[0, 5, 10, 10]` and the trailing window of length 10 ending at
the recorded call timestamp 10 contains 3 > 2 recorded calls (already under
the charitable half-open reading `(0, 10]`; the closed window contains 4). -/
theorem rate_window_counterexample :
    ¬ (∀ (p : ℕ) (W t₀ : ℚ) (evs : List (ℚ × ℚ)),
        1 ≤ p → 0 < W →
        validFromWeak p W [] t₀ evs = true →
        ∀ a ∈ runHist p W [] evs,
          winCount (runHist p W [] evs) a W ≤ p) := by
  intro hclaim
  have hv : validFromWeak 2 10 [] 0
      [(0, 0), (5, 5), (10, 10), (10, 10)] = true := by
    norm_num [validFromWeak, needsSleep, stepLimiter, evict, margin,
      List.dropWhile_cons]
  have hrun : runHist 2 10 [] [(0, 0), (5, 5), (10, 10), (10, 10)] =
      [0, 5, 10, 10] := by
    norm_num [runHist, stepLimiter, evict, List.dropWhile_cons]
  have hmem : (10 : ℚ) ∈ runHist 2 10 []
      [(0, 0), (5, 5), (10, 10), (10, 10)] := by
    rw [hrun]
    simp
  have hle := hclaim 2 10 0 [(0, 0), (5, 5), (10, 10), (10, 10)]
    (by norm_num) (by norm_num) hv 10 hmem
  rw [hrun] at hle
  have hwc : winCount [0, 5, 10, 10] 10 10 = 3 := by
    norm_num [winCount, List.filter_cons]
  rw [hwc] at hle
  exact absurd hle (by norm_num)

lemma sorted_dropWhile_evict (q W : ℚ) :
    ∀ (l : List ℚ), l.Pairwise (· ≤ ·) →
      l.dropWhile (fun x => decide (W < q - x)) =
        l.filter (fun x => decide (q - x ≤ W))
  | [], _ => rfl
  | a :: l, h => by
      rw [List.pairwise_cons] at h
      by_cases hqa : W < q - a
      · rw [List.dropWhile_cons_of_pos (by simpa using hqa),
          List.filter_cons_of_neg (by simpa using not_le.mpr hqa)]
        exact sorted_dropWhile_evict q W l h.2
      · rw [List.dropWhile_cons_of_neg (by simpa using hqa),
          List.filter_cons_of_pos (by simpa using not_lt.mp hqa)]
        congr 1
        rw [eq_comm]
        apply List.filter_eq_self.mpr
        intro x hx
        have hax : a ≤ x := h.1 x hx
        have : q - x ≤ W := by
          have := not_lt.mp hqa
          linarith
        simpa using this

lemma filter_length_mono_mem {α : Type} (p q : α → Bool) :
    ∀ (l : List α), (∀ a ∈ l, p a = true → q a = true) →
      (l.filter p).length ≤ (l.filter q).length
  | [], _ => Nat.le_refl 0
  | a :: l, h => by
      have hrec := filter_length_mono_mem p q l
        (fun x hx => h x (List.mem_cons_of_mem a hx))
      by_cases hpa : p a = true
      · rw [List.filter_cons_of_pos hpa, List.filter_cons_of_pos (h a
          (List.mem_cons_self a l) hpa)]
        simpa using hrec
      · rw [List.filter_cons_of_neg (by simpa using hpa)]
        by_cases hqa : q a = true
        · rw [List.filter_cons_of_pos hqa]
          exact Nat.le_succ_of_le hrec
        · rw [List.filter_cons_of_neg (by simpa using hqa)]
          exact hrec

lemma exists_max_mem : ∀ (l : List ℚ), l ≠ [] →
    ∃ L ∈ l, ∀ x ∈ l, x ≤ L
  | [], h => absurd rfl h
  | a :: l, _ => by
      rcases eq_or_ne l [] with hnil | hnil
      · subst hnil
        exact ⟨a, List.mem_cons_self a [], by
          intro x hx
          rw [List.mem_singleton] at hx
          exact le_of_eq hx⟩
      · obtain ⟨L, hL, hLmax⟩ := exists_max_mem l hnil
        rcases le_total a L with haL | haL
        · refine ⟨L, List.mem_cons_of_mem a hL, ?_⟩
          intro x hx
          rcases List.mem_cons.mp hx with hx | hx
          · rw [hx]; exact haL
          · exact hLmax x hx
        · refine ⟨a, List.mem_cons_self a l, ?_⟩
          intro x hx
          rcases List.mem_cons.mp hx with hx | hx
          · rw [hx]
          · exact le_trans (hLmax x hx) haL

lemma winCount_append_right (hist : List ℚ) (z b W : ℚ) (h : ¬ z ≤ b) :
    winCount (hist ++ [z]) b W = winCount hist b W := by
  unfold winCount
  rw [List.filter_append, List.filter_cons, List.filter_nil]
  have : (decide (b - W < z) && decide (z ≤ b)) = false := by
    simp [h]
  rw [this]
  simp

lemma winCount_append_self (hist : List ℚ) (z W : ℚ) (hW : 0 < W) :
    winCount (hist ++ [z]) z W =
      (hist.filter (fun x => decide (z - W < x) && decide (x ≤ z))).length
        + 1 := by
  unfold winCount
  rw [List.filter_append, List.filter_cons, List.filter_nil]
  have : (decide (z - W < z) && decide (z ≤ z)) = true := by
    simp
    linarith
  rw [this]
  simp

lemma filter_absorb (P Q : ℚ → Bool) (h : ∀ x, P x = true → Q x = true)
    (l : List ℚ) : (l.filter Q).filter P = l.filter P := by
  rw [List.filter_filter]
  apply List.filter_congr
  intro x _
  by_cases hp : P x = true
  · rw [hp, h x hp, Bool.true_and]
  · rw [Bool.eq_false_iff.mpr hp, Bool.false_and]

lemma limiter_step_inv (m : ℕ) (W t q r : ℚ) (calls hist : List ℚ)
    (hm : 1 ≤ m) (hW : 0 < W)
    (hc : calls = hist.filter (fun x => decide (t - x ≤ W)))
    (hso : hist.Pairwise (· ≤ ·))
    (hub : ∀ x ∈ hist, x ≤ t)
    (hwin : ∀ b ∈ hist, winCount hist b W ≤ m)
    (htq : t < q)
    (hr : needsSleep m W calls q = true →
      (evict W q calls).headD 0 + W + margin ≤ r) :
    (stepLimiter m W calls q r).1 =
      (hist ++ [(stepLimiter m W calls q r).2]).filter
        (fun x => decide ((stepLimiter m W calls q r).2 - x ≤ W)) ∧
    (hist ++ [(stepLimiter m W calls q r).2]).Pairwise (· ≤ ·) ∧
    (∀ x ∈ hist ++ [(stepLimiter m W calls q r).2],
      x ≤ (stepLimiter m W calls q r).2) ∧
    (∀ b ∈ hist ++ [(stepLimiter m W calls q r).2],
      winCount (hist ++ [(stepLimiter m W calls q r).2]) b W ≤ m) := by
  have hq1 : evict W q calls = hist.filter (fun x => decide (q - x ≤ W)) := by
    rw [hc]
    unfold evict
    rw [sorted_dropWhile_evict q W _ (hso.filter _), List.filter_filter]
    apply List.filter_congr
    intro x _
    by_cases hqx : q - x ≤ W
    · have htx : t - x ≤ W := by linarith
      simp [hqx, htx]
    · simp [hqx]
  have hn1 : (hist.filter (fun x => decide (q - x ≤ W))).length ≤ m := by
    rcases eq_or_ne hist [] with hnil | hnil
    · rw [hnil]
      simp
    · obtain ⟨L, hL, hLmax⟩ := exists_max_mem hist hnil
      have hLt : L ≤ t := hub L hL
      have hmono := filter_length_mono_mem
        (fun x => decide (q - x ≤ W))
        (fun x => decide (L - W < x) && decide (x ≤ L)) hist ?_
      · exact le_trans hmono (hwin L hL)
      · intro x hx hpx
        have hqx : q - x ≤ W := of_decide_eq_true hpx
        have h1 : L - W < x := by linarith
        have h2 : x ≤ L := hLmax x hx
        simp [h1, h2]
  have hG1 : ∀ a : ℚ,
      hist.filter (fun x => decide (a - x ≤ W)) ++ [a] =
        (hist ++ [a]).filter (fun x => decide (a - x ≤ W)) := by
    intro a
    rw [List.filter_append]
    have h0W : (0 : ℚ) ≤ W := le_of_lt hW
    have : decide (a - a ≤ W) = true := decide_eq_true (by linarith)
    simp [List.filter_cons, this, h0W]
  have hcommon : ∀ a : ℚ, q ≤ a →
      (hist ++ [a]).Pairwise (· ≤ ·) ∧ (∀ x ∈ hist ++ [a], x ≤ a) := by
    intro a hqa
    constructor
    · rw [List.pairwise_append]
      refine ⟨hso, List.pairwise_singleton _ _, ?_⟩
      intro x hx y hy
      rw [List.mem_singleton] at hy
      subst hy
      have := hub x hx
      linarith
    · intro x hx
      rcases List.mem_append.mp hx with hx | hx
      · have := hub x hx
        linarith
      · rw [List.mem_singleton] at hx
        exact le_of_eq hx
  have hold : ∀ a : ℚ, q ≤ a → ∀ b ∈ hist,
      winCount (hist ++ [a]) b W ≤ m := by
    intro a hqa b hb
    rw [winCount_append_right hist a b W (by
      have := hub b hb
      intro hab
      linarith)]
    exact hwin b hb
  have hPimp : ∀ a : ℚ, q ≤ a → ∀ x : ℚ,
      (decide (a - W < x) && decide (x ≤ a)) = true →
      decide (q - x ≤ W) = true := by
    intro a hqa x hx
    rw [Bool.and_eq_true, decide_eq_true_eq, decide_eq_true_eq] at hx
    exact decide_eq_true (by linarith [hx.1, hx.2])
  have hstep : stepLimiter m W calls q r =
      if m ≤ (evict W q calls).length then
        if 0 < (evict W q calls).headD 0 + W - q then
          (evict W r (evict W q calls) ++ [r], r)
        else (evict W q calls ++ [q], q)
      else (evict W q calls ++ [q], q) := rfl
  by_cases hbig : m ≤ (evict W q calls).length
  · by_cases hwait : 0 < (evict W q calls).headD 0 + W - q
    · -- sleep branch: append at time r
      rw [hstep, if_pos hbig, if_pos hwait]
      simp only
      have hsleep : needsSleep m W calls q = true := by
        unfold needsSleep
        rw [decide_eq_true hbig, decide_eq_true hwait]
        rfl
      have hrr : (evict W q calls).headD 0 + W + margin ≤ r := hr hsleep
      rw [hq1] at hbig hwait hrr ⊢
      have hne : hist.filter (fun x => decide (q - x ≤ W)) ≠ [] := by
        intro hnil
        rw [hnil] at hbig
        simp at hbig
        omega
      match hc1 : hist.filter (fun x => decide (q - x ≤ W)) with
      | [] => exact absurd hc1 hne
      | o :: rest =>
        rw [hc1] at hbig hwait hrr hn1
        simp only [List.headD_cons] at hwait hrr
        have homem : o ∈ hist.filter (fun x => decide (q - x ≤ W)) := by
          rw [hc1]
          exact List.mem_cons_self o rest
        have hoq : q - o ≤ W :=
          of_decide_eq_true (List.mem_filter.mp homem).2
        have hmarg : (0 : ℚ) < margin := by
          unfold margin
          norm_num
        have hqr : q < r := by linarith
        have hor : o < r - W := by linarith
        have hev2 : evict W r (o :: rest) =
            hist.filter (fun x => decide (r - x ≤ W)) := by
          rw [← hc1]
          unfold evict
          rw [sorted_dropWhile_evict r W _ (hso.filter _)]
          exact filter_absorb _ _ (by
            intro x hx
            rw [decide_eq_true_eq] at hx
            exact decide_eq_true (by linarith)) hist
        rw [hev2, hG1 r]
        refine ⟨rfl, (hcommon r (le_of_lt hqr)).1,
          (hcommon r (le_of_lt hqr)).2, ?_⟩
        intro b hb
        rcases List.mem_append.mp hb with hb | hb
        · exact hold r (le_of_lt hqr) b hb
        · rw [List.mem_singleton] at hb
          rw [hb]
          rw [winCount_append_self hist r W hW]
          have habs : hist.filter
              (fun x => decide (r - W < x) && decide (x ≤ r)) =
              (hist.filter (fun x => decide (q - x ≤ W))).filter
                (fun x => decide (r - W < x) && decide (x ≤ r)) :=
            (filter_absorb _ _ (hPimp r (le_of_lt hqr)) hist).symm
          rw [habs, hc1, List.filter_cons]
          have hPo : (decide (r - W < o) && decide (o ≤ r)) = false := by
            have hno : ¬ r - W < o := not_lt.mpr (le_of_lt hor)
            simp [hno]
          rw [hPo]
          simp only [Bool.false_eq_true, if_false]
          have hlen := List.length_filter_le
            (fun x => decide (r - W < x) && decide (x ≤ r)) rest
          have hlen2 : rest.length + 1 ≤ m := by
            simpa using hn1
          omega
    · -- at the limit but the oldest record sits exactly at the window
      -- boundary: wait = 0 triggers no sleep, append at time q
      rw [hstep, if_pos hbig, if_neg hwait]
      simp only
      rw [hq1] at hbig hwait ⊢
      have hne : hist.filter (fun x => decide (q - x ≤ W)) ≠ [] := by
        intro hnil
        rw [hnil] at hbig
        simp at hbig
        omega
      match hc1 : hist.filter (fun x => decide (q - x ≤ W)) with
      | [] => exact absurd hc1 hne
      | o :: rest =>
        rw [hc1] at hbig hwait hn1
        simp only [List.headD_cons] at hwait
        have homem : o ∈ hist.filter (fun x => decide (q - x ≤ W)) := by
          rw [hc1]
          exact List.mem_cons_self o rest
        have hoq : q - o ≤ W :=
          of_decide_eq_true (List.mem_filter.mp homem).2
        have ho : o = q - W := by linarith [not_lt.mp hwait]
        rw [← hc1, hG1 q]
        refine ⟨rfl, (hcommon q (le_refl q)).1,
          (hcommon q (le_refl q)).2, ?_⟩
        intro b hb
        rcases List.mem_append.mp hb with hb | hb
        · exact hold q (le_refl q) b hb
        · rw [List.mem_singleton] at hb
          rw [hb]
          rw [winCount_append_self hist q W hW]
          have habs : hist.filter
              (fun x => decide (q - W < x) && decide (x ≤ q)) =
              (hist.filter (fun x => decide (q - x ≤ W))).filter
                (fun x => decide (q - W < x) && decide (x ≤ q)) :=
            (filter_absorb _ _ (hPimp q (le_refl q)) hist).symm
          rw [habs, hc1, List.filter_cons]
          have hPo : (decide (q - W < o) && decide (o ≤ q)) = false := by
            have hno : ¬ q - W < o := by
              rw [ho]
              exact lt_irrefl _
            simp [hno]
          rw [hPo]
          simp only [Bool.false_eq_true, if_false]
          have hlen := List.length_filter_le
            (fun x => decide (q - W < x) && decide (x ≤ q)) rest
          have hlen2 : rest.length + 1 ≤ m := by
            simpa using hn1
          omega
  · -- below the limit: append at time q
    rw [hstep, if_neg hbig]
    simp only
    rw [hq1] at hbig ⊢
    rw [hG1 q]
    refine ⟨rfl, (hcommon q (le_refl q)).1, (hcommon q (le_refl q)).2, ?_⟩
    intro b hb
    rcases List.mem_append.mp hb with hb | hb
    · exact hold q (le_refl q) b hb
    · rw [List.mem_singleton] at hb
      rw [hb]
      rw [winCount_append_self hist q W hW]
      have hmono := filter_length_mono_mem
        (fun x => decide (q - W < x) && decide (x ≤ q))
        (fun x => decide (q - x ≤ W)) hist
        (fun x _ hx => hPimp q (le_refl q) x hx)
      have hlt : ¬ m ≤ (hist.filter (fun x => decide (q - x ≤ W))).length :=
        hbig
      omega

lemma limiter_aux (m : ℕ) (W : ℚ) (hm : 1 ≤ m) (hW : 0 < W) :
    ∀ (evs : List (ℚ × ℚ)) (calls hist : List ℚ) (t : ℚ),
      calls = hist.filter (fun x => decide (t - x ≤ W)) →
      hist.Pairwise (· ≤ ·) →
      (∀ x ∈ hist, x ≤ t) →
      (∀ b ∈ hist, winCount hist b W ≤ m) →
      validFrom m W calls t evs = true →
      (runHist m W calls evs).length = evs.length ∧
      ∀ b ∈ hist ++ runHist m W calls evs,
        winCount (hist ++ runHist m W calls evs) b W ≤ m
  | [], calls, hist, t, _, _, _, hwin, _ => by
      refine ⟨rfl, ?_⟩
      intro b hb
      have hnil : runHist m W calls [] = [] := rfl
      rw [hnil, List.append_nil] at hb ⊢
      exact hwin b hb
  | (q, r) :: evs, calls, hist, t, hc, hso, hub, hwin, hv => by
      rw [validFrom] at hv
      rw [Bool.and_eq_true, Bool.and_eq_true] at hv
      obtain ⟨⟨htq0, hsl0⟩, hvrec⟩ := hv
      have htq : t < q := of_decide_eq_true htq0
      have hr : needsSleep m W calls q = true →
          (evict W q calls).headD 0 + W + margin ≤ r := by
        intro hns
        rw [Bool.or_eq_true] at hsl0
        rcases hsl0 with hsl0 | hsl0
        · rw [hns] at hsl0
          simp at hsl0
        · exact of_decide_eq_true hsl0
      obtain ⟨hc', hso', hub', hwin'⟩ :=
        limiter_step_inv m W t q r calls hist hm hW hc hso hub hwin htq hr
      have hrec := limiter_aux m W hm hW evs
        (stepLimiter m W calls q r).1
        (hist ++ [(stepLimiter m W calls q r).2])
        (stepLimiter m W calls q r).2 hc' hso' hub' hwin' hvrec
      rw [runHist]
      constructor
      · rw [List.length_cons, hrec.1]
        rfl
      · intro b hb
        have hassoc : hist ++ (stepLimiter m W calls q r).2 ::
            runHist m W (stepLimiter m W calls q r).1 evs =
            (hist ++ [(stepLimiter m W calls q r).2]) ++
              runHist m W (stepLimiter m W calls q r).1 evs := by
          rw [List.append_assoc]
          rfl
        rw [hassoc] at hb ⊢
        exact hrec.2 b hb

/-- C1 (amended): over every schedule the real clock can produce in which
the observed time strictly increases from each call to the next (and a
sleeping call is suspended at least `wait + margin`), every call of
`wait_if_needed` appends exactly one timestamp, and no half-open trailing
window `(a - window, a]` ending at a recorded call timestamp `a` ever
contains more than `max_calls` recorded calls. Each call evicts records
older than `now - window`, suspends for `(oldest + window) - now` plus the
margin when `max_calls` records remain and that wait is positive, re-evicts
after the suspension, and appends the current time — all by the definition
of `stepLimiter`. -/
theorem rate_sliding_window (m : ℕ) (W t₀ : ℚ) (evs : List (ℚ × ℚ))
    (hm : 1 ≤ m) (hW : 0 < W)
    (hv : validFrom m W [] t₀ evs = true) :
    (runHist m W [] evs).length = evs.length ∧
    ∀ a ∈ runHist m W [] evs, winCount (runHist m W [] evs) a W ≤ m := by
  have := limiter_aux m W hm hW evs [] [] t₀ (by simp)
    (List.Pairwise.nil) (by simp) (by simp) hv
  rw [List.nil_append] at this
  exact this

/-- Witness for C1's amended theorem on the concrete strictly-advancing
schedule 0, 5, 11 with `max_calls = 2`, `window = 10`. -/
theorem rate_sliding_window_witness :
    (1 ≤ 2 ∧ (0 : ℚ) < 10 ∧
      validFrom 2 10 [] (-1) [(0, 0), (5, 5), (11, 11)] = true) ∧
    ((runHist 2 10 [] [(0, 0), (5, 5), (11, 11)]).length =
        [((0 : ℚ), (0 : ℚ)), (5, 5), (11, 11)].length ∧
      ∀ a ∈ runHist 2 10 [] [(0, 0), (5, 5), (11, 11)],
        winCount (runHist 2 10 [] [(0, 0), (5, 5), (11, 11)]) a 10 ≤ 2) := by
  have hv : validFrom 2 10 [] (-1) [(0, 0), (5, 5), (11, 11)] = true := by
    norm_num [validFrom, needsSleep, stepLimiter, evict, margin,
      List.dropWhile_cons]
  exact ⟨⟨by norm_num, by norm_num, hv⟩,
    rate_sliding_window 2 10 (-1) [(0, 0), (5, 5), (11, 11)]
      (by norm_num) (by norm_num) hv⟩

end StockRecom
